import Mathlib

/-!
Verification of the multi-exchange L3 order-book estimator.

Shallow embedding of the core of the program:
  - the book replica state machine of src/main.rs (MyApp): per-level L3
    decomposition (apply_update), sequencing (process_update), snapshot
    application and buffered-diff replay (the eframe update handler);
  - the Hyperliquid adapter event synthesis of src/exchanges/hyperliquid.rs;
  - the mini-batch k-means clusterer of src/kmeans.rs.

Rust Decimal values (exact fixed-point decimals) are embedded as rationals,
which are closed under the additions, subtractions and comparisons the code
performs. BTreeMap sides are embedded as association lists with first-match
lookup, in-place replacement and key-filtering removal; only finite-map
semantics (lookup / insert / erase laws) is used by the theorems.
VecDeque is embedded as List.
-/

namespace L3Est

/-- One side of the book: prices mapped to the ordered sequence of estimated
individual orders at that price (`BTreeMap<Decimal, VecDeque<Decimal>>`). -/
abbrev Book := List (ℚ × List ℚ)

/-- Map lookup (first matching key). -/
def lookupP : Book → ℚ → Option (List ℚ)
  | [], _ => none
  | e :: t, p => if e.1 = p then some e.2 else lookupP t p

/-- Map insert/replace: replaces the value at the first occurrence of the key,
or appends a new entry. -/
def insertP : Book → ℚ → List ℚ → Book
  | [], p, v => [(p, v)]
  | e :: t, p, v => if e.1 = p then (p, v) :: t else e :: insertP t p v

/-- Map removal of a key (`BTreeMap::remove`). -/
def eraseP (b : Book) (p : ℚ) : Book :=
  b.filter (fun e => decide (e.1 ≠ p))

/-- Rightmost index of an element (`VecDeque::iter().rposition(|&x| x == a)`). -/
def rposIdx : List ℚ → ℚ → Option ℕ
  | [], _ => none
  | x :: t, a =>
    match rposIdx t a with
    | some i => some (i + 1)
    | none => if x = a then some 0 else none

/-- Leftmost index of an element (`VecDeque::iter().position(|&x| x == a)`). -/
def lposIdx : List ℚ → ℚ → Option ℕ
  | [], _ => none
  | x :: t, a => if x = a then some 0 else (lposIdx t a).map (fun i => i + 1)

/-- Maximum of a list (`iter().max()`); 0 on the empty list, on which the Rust
code would panic via `unwrap` (all theorems stay away from that case). -/
def listMax : List ℚ → ℚ
  | [] => 0
  | x :: t => t.foldl max x

/-- Minimum of a nonempty list (the fold in `kmeans::normalize`); 0 on []. -/
def listMin : List ℚ → ℚ
  | [] => 0
  | x :: t => t.foldl min x

/-- The body shared by the bid and ask per-row updates of `MyApp::apply_update`
for a row `(p, q)` with `q ≠ 0`: the L3 decomposition heuristic.
`old_qty.get_mut` hit = the `some S` branch. On a shrink, first try to remove
the rightmost element equal to the delta; otherwise remove the (leftmost
occurrence of the) largest element and append `largest - delta`. The inner
`none` branch of `lposIdx` is the case where the Rust `unwrap` on
`iter().max()` / `position` would panic (empty sequence). -/
def applyRowCore (b : Book) (p q : ℚ) : Book :=
  match lookupP b p with
  | some S =>
    if S.sum > q then
      match rposIdx S (S.sum - q) with
      | some i => insertP b p (S.eraseIdx i)
      | none =>
        match lposIdx S (listMax S) with
        | some j => insertP b p (S.eraseIdx j ++ [listMax S - (S.sum - q)])
        | none => b
    else if S.sum < q then insertP b p (S ++ [q - S.sum])
    else b
  | none => insertP b p [q]

/-- One bid row of `MyApp::apply_update`: the bid loop has an extra `qty > 0`
guard after the zero test, so negative quantities are ignored. -/
def applyBidRow (b : Book) (p q : ℚ) : Book :=
  if q = 0 then eraseP b p
  else if 0 < q then applyRowCore b p q
  else b

/-- One ask row of `MyApp::apply_update`: no positivity guard after the zero
test (the `else if let Some(..)` chain). -/
def applyAskRow (b : Book) (p q : ℚ) : Book :=
  if q = 0 then eraseP b p
  else applyRowCore b p q

/-- `exchanges::DepthUpdate` (diff event). -/
structure DepthUpdate where
  event_time : ℕ
  transaction_time : ℕ
  symbol : String
  capital_u : ℕ
  small_u : ℕ
  pu : ℤ
  bids : List (ℚ × ℚ)
  asks : List (ℚ × ℚ)
deriving DecidableEq

/-- `exchanges::OrderBookSnapshot`. -/
structure OrderBookSnapshot where
  last_update_id : ℕ
  bids : List (ℚ × ℚ)
  asks : List (ℚ × ℚ)
deriving DecidableEq

/-- The replica-relevant state of `MyApp`. -/
structure ReplicaState where
  bids : Book
  asks : Book
  last_applied_u : ℕ
  is_synced : Bool
  update_buffer : List DepthUpdate
deriving DecidableEq

/-- `MyApp::apply_update`: fold the bid rows, then the ask rows. -/
def apply_update (s : ReplicaState) (u : DepthUpdate) : ReplicaState :=
  { s with
    bids := u.bids.foldl (fun b pq => applyBidRow b pq.1 pq.2) s.bids,
    asks := u.asks.foldl (fun b pq => applyAskRow b pq.1 pq.2) s.asks }

/-- `MyApp::process_update`. The Bool result records whether a `Refetch`
control message was issued through the non-blocking `try_send`. -/
def process_update (s : ReplicaState) (u : DepthUpdate) : ReplicaState × Bool :=
  if u.small_u < s.last_applied_u then (s, false)
  else if s.is_synced then
    if 0 ≤ u.pu ∧ u.pu.toNat ≠ s.last_applied_u then
      ({ s with update_buffer := [] }, true)
    else
      let s2 := apply_update s u
      ({ s2 with last_applied_u := u.small_u }, false)
  else if u.capital_u ≤ s.last_applied_u ∧ s.last_applied_u ≤ u.small_u then
    let s2 := apply_update s u
    ({ s2 with last_applied_u := u.small_u, is_synced := true }, false)
  else ({ s with update_buffer := [] }, true)

/-- The condition under which `process_update` applies the diff (neither the
stale early return nor one of the two gap branches). -/
def isApplied (s : ReplicaState) (u : DepthUpdate) : Bool :=
  if u.small_u < s.last_applied_u then false
  else if s.is_synced then !(decide (0 ≤ u.pu ∧ u.pu.toNat ≠ s.last_applied_u))
  else decide (u.capital_u ≤ s.last_applied_u ∧ s.last_applied_u ≤ u.small_u)

/-- Building one side from snapshot rows, filtering out non-positive
quantities (the `AppMessage::Snapshot` arm of the eframe update handler). -/
def snapBook (rows : List (ℚ × ℚ)) : Book :=
  rows.foldl (fun b pq => if 0 < pq.2 then insertP b pq.1 [pq.2] else b) []

/-- The buffered-diff replay loop after a snapshot: `pop_front` then
`process_update`, until the buffer (which `process_update` may clear) is
empty. Fuel = initial buffer length; `process_update` never grows the buffer.
The Bool accumulates whether any replay issued a Refetch. -/
def drainFuel : ℕ → ReplicaState → Bool → ReplicaState × Bool
  | 0, s, r => (s, r)
  | n + 1, s, r =>
    match s.update_buffer with
    | [] => (s, r)
    | u :: rest =>
      let s1 := { s with update_buffer := rest }
      let res := process_update s1 u
      drainFuel n res.1 (r || res.2)

/-- The `AppMessage::Snapshot` arm: clear both sides, insert positive snapshot
rows, set `last_applied_u` and drop sync, then replay the buffered diffs. -/
def handleSnapshot (s : ReplicaState) (snap : OrderBookSnapshot) : ReplicaState × Bool :=
  let s1 : ReplicaState :=
    { bids := snapBook snap.bids, asks := snapBook snap.asks,
      last_applied_u := snap.last_update_id, is_synced := false,
      update_buffer := s.update_buffer }
  drainFuel s1.update_buffer.length s1 false

/-- The `AppMessage::Update` arm: buffer while no snapshot has arrived
(`last_applied_u == 0`), otherwise process. -/
def handleUpdate (s : ReplicaState) (u : DepthUpdate) : ReplicaState × Bool :=
  if s.last_applied_u = 0 then
    ({ s with update_buffer := s.update_buffer ++ [u] }, false)
  else process_update s u

/-- Aggregate quantity at a price: the sum of the level's sequence, when the
price is present. -/
def aggOf (b : Book) (p : ℚ) : Option ℚ :=
  (lookupP b p).map List.sum

/-- Every present level has a nonempty sequence. -/
def nonEmptyLevels (b : Book) : Prop :=
  ∀ e ∈ b, e.2 ≠ []

/-- Every element of every level is strictly positive. -/
def bookAllPos (b : Book) : Prop :=
  ∀ e ∈ b, ∀ x ∈ e.2, 0 < x

/-- All row quantities of a diff side are nonnegative (true of every wire
diff: quantities are parsed decimal magnitudes, 0 meaning removal). -/
def rowsNonneg (rows : List (ℚ × ℚ)) : Prop :=
  ∀ r ∈ rows, 0 ≤ r.2

/-- The last aggregate quantity reported per price: spec-side ghost map for
the invariant "every present level sums to the last reported aggregate".
A row (p, 0) removes p; a row (p, q) with q ≠ 0 sets p to q; untouched
prices keep the base aggregate. -/
def lastReported (rows : List (ℚ × ℚ)) (base : ℚ → Option ℚ) : ℚ → Option ℚ :=
  rows.foldl
    (fun m pq => fun r => if r = pq.1 then (if pq.2 = 0 then none else some pq.2) else m r)
    base

/-- Guard for one row of the shrink heuristic: if the row shrinks the level,
the delta is either matched exactly by some element or smaller than the
largest element (so that the appended `largest - delta` stays positive). -/
def rowGuardB (b : Book) (p q : ℚ) : Bool :=
  match lookupP b p with
  | none => true
  | some S =>
    if S.sum > q then
      S.any (fun x => decide (x = S.sum - q)) || decide (S.sum - q < listMax S)
    else true

/-- The row guard, checked along the fold of a side's rows. -/
def sideGuardB : Book → List (ℚ × ℚ) → Bool
  | _, [] => true
  | b, pq :: rest => rowGuardB b pq.1 pq.2 && sideGuardB (applyAskRow b pq.1 pq.2) rest

/-! ## Hyperliquid adapter (src/exchanges/hyperliquid.rs) -/

/-- One `HyperliquidWsLevel` after the `Decimal::from_str` parse attempts:
`px`/`sz` are the parse results (none = parse failure). -/
structure HLWsLevel where
  px : Option ℚ
  sz : Option ℚ
  n : ℕ
deriving DecidableEq

/-- `HyperliquidWsBook`: `levels: [bids, asks]` plus the venue time. -/
structure HLWsBook where
  coin : String
  bidLevels : List HLWsLevel
  askLevels : List HLWsLevel
  time : ℕ
deriving DecidableEq

/-- The `filter_map` over parse results used for both sides. -/
def parseLevels (ls : List HLWsLevel) : List (ℚ × ℚ) :=
  ls.filterMap (fun l =>
    match l.px, l.sz with
    | some p, some s => some (p, s)
    | _, _ => none)

/-- Wrapping `u64` subtraction of 1 (`book.time - 1` in release mode). -/
def wrapSub64 (n : ℕ) : ℕ :=
  (n + 2 ^ 64 - 1) % 2 ^ 64

/-- The `as i64` cast of a `u64` value. -/
def asI64 (n : ℕ) : ℤ :=
  if n % 2 ^ 64 < 2 ^ 63 then (n % 2 ^ 64 : ℤ) else (n % 2 ^ 64 : ℤ) - 2 ^ 64

/-- `HyperliquidExchange::convert_ws_book_to_update`, identical to the inline
construction in `connect` for every non-first received book:
`capital_u = small_u = time`, `pu = time - 1` (wrapping u64 then cast). -/
def convert_ws_book_to_update (b : HLWsBook) : DepthUpdate :=
  { event_time := b.time, transaction_time := b.time, symbol := b.coin,
    capital_u := b.time, small_u := b.time,
    pu := asI64 (wrapSub64 b.time),
    bids := parseLevels b.bidLevels, asks := parseLevels b.askLevels }

/-! ## Mini-batch k-means (src/kmeans.rs)

`Point.qty` values are `f64` in the source; they are embedded as rationals.
None of the verified properties depends on rounding: they are about label
counts, label ranges and the order produced by comparisons, which agree
between `f64` (on the finite values arising here) and `ℚ`. The `rand`
sampling is embedded as an arbitrary sampler oracle whose draws are reduced
into range with `% len`, matching the support of `random_range(0..len)`. -/

/-- `MiniBatchKMeans` (fields of the struct). -/
structure KState where
  num_clusters : ℕ
  batch_size : ℕ
  max_iter : ℕ
  centroids : List ℚ
deriving DecidableEq

/-- The flatten loop at the top of `fit`: every strictly positive quantity,
in price-then-sequence traversal order. -/
def flattenPoints (ob : Book) : List ℚ :=
  ob.foldl (fun acc e => acc ++ e.2.filter (fun q => decide (0 < q))) []

/-- `kmeans::normalize`: min-max rescale; skipped when the range is not
positive. -/
def normalize (pts : List ℚ) : List ℚ :=
  match pts with
  | [] => []
  | _ =>
    let mn := listMin pts
    let range := listMax pts - mn
    if 0 < range then pts.map (fun q => (q - mn) / range) else pts

/-- `MiniBatchKMeans::closest_centroid`: fold with strict improvement,
starting from infinite distance (modelled as `none`) and index 0. -/
def closestAux (p : ℚ) : List ℚ → ℕ → Option ℚ → ℕ → ℕ
  | [], _, _, best => best
  | c :: rest, i, bestD, best =>
    let d := |p - c|
    match bestD with
    | none => closestAux p rest (i + 1) (some d) i
    | some bd =>
      if d < bd then closestAux p rest (i + 1) (some d) i
      else closestAux p rest (i + 1) (some bd) best

/-- Index of the nearest centroid under absolute distance. -/
def closest_centroid (cs : List ℚ) (p : ℚ) : ℕ :=
  closestAux p cs 0 none 0

/-- `MiniBatchKMeans::initialize_centroids`: sort ascending, take k evenly
spaced samples; the trailing `while` pad never fires since the loop already
pushed k samples. -/
def init_centroids (k : ℕ) (pts : List ℚ) : List ℚ :=
  let sorted := pts.insertionSort (fun a b => a ≤ b)
  let step := (sorted.length - 1) / max (max k 1 - 1) 1
  let cs := (List.range k).map (fun i => sorted.getD (min (i * step) (sorted.length - 1)) 0)
  cs ++ List.replicate (k - cs.length) (sorted.getD 0 0)

/-- Accumulate per-centroid sums and counts over one mini-batch. -/
def batchSums (cs : List ℚ) (pts : List ℚ) (batch : List ℕ) : List ℚ × List ℕ :=
  batch.foldl
    (fun acc idx =>
      let p := pts.getD idx 0
      let c := closest_centroid cs p
      (acc.1.set c (acc.1.getD c 0 + p), acc.2.set c (acc.2.getD c 0 + 1)))
    (List.replicate cs.length 0, List.replicate cs.length 0)

/-- The per-centroid learning-rate update
`c ← (1 - 1/n) * c + (1/n) * (sum/n)` for centroids hit by the batch. -/
def updateCentroids (cs : List ℚ) (sums : List ℚ) (counts : List ℕ) : List ℚ :=
  (List.range cs.length).map (fun i =>
    let n := counts.getD i 0
    if 0 < n then
      let lr : ℚ := 1 / (n : ℚ)
      (1 - lr) * cs.getD i 0 + lr * (sums.getD i 0 / (n : ℚ))
    else cs.getD i 0)

/-- The `max_iter` mini-batch iterations. `sampler it j` is the j-th random
draw of iteration `it`, reduced mod the point count. -/
def fitLoop (sampler : ℕ → ℕ → ℕ) (pts : List ℚ) (bs : ℕ) :
    ℕ → ℕ → List ℚ → List ℚ
  | _, 0, cs => cs
  | it, n + 1, cs =>
    let batch := (List.range (min bs pts.length)).map (fun j => sampler it j % pts.length)
    let bc := batchSums cs pts batch
    fitLoop sampler pts bs (it + 1) n (updateCentroids cs bc.1 bc.2)

/-- The label-stabilization permutation: centroid indices sorted ascending by
centroid value (stable, ties keep original index order). -/
def stabilizeIndices (k : ℕ) (cs : List ℚ) : List ℕ :=
  (List.range k).insertionSort (fun a b => cs.getD a 0 ≤ cs.getD b 0)

/-- Leftmost index of a natural in a list (the rank assigned by the
`label_map` HashMap: the permutation has distinct entries, so first index =
the inserted rank). -/
def lposIdxN : List ℕ → ℕ → Option ℕ
  | [], _ => none
  | x :: t, a => if x = a then some 0 else (lposIdxN t a).map (fun i => i + 1)

/-- The normalized point vector `fit` works on. -/
def fitPoints (ob : Book) : List ℚ :=
  normalize (flattenPoints ob)

/-- The centroid vector after `fit`: optional re-initialization (empty or
size-mismatched carried centroids) followed by the mini-batch iterations. -/
def fitCents (st : KState) (sampler : ℕ → ℕ → ℕ) (ob : Book) : List ℚ :=
  let pts := fitPoints ob
  let cs0 :=
    if st.centroids = [] ∨ st.centroids.length ≠ st.num_clusters
    then init_centroids st.num_clusters pts
    else st.centroids
  fitLoop sampler pts st.batch_size 0 st.max_iter cs0

/-- `MiniBatchKMeans::fit`. Returns the post-fit state (the struct after the
`&mut self` call) and the stabilized labels: nearest-centroid assignment
composed with the rank remap of the stabilization permutation. -/
def fit (st : KState) (sampler : ℕ → ℕ → ℕ) (ob : Book) : KState × List ℕ :=
  if flattenPoints ob = [] then (st, [])
  else
    let cs1 := fitCents st sampler ob
    let ind := stabilizeIndices st.num_clusters cs1
    ({ st with centroids := cs1 },
     (fitPoints ob).map (fun p => (lposIdxN ind (closest_centroid cs1 p)).getD 0))

/-- One level of `build_clustered_orders`: pair each strictly positive
quantity with `labels[idx]`, advancing the flattened index. `none` models the
`labels[idx]` panic on an out-of-bounds index. -/
def buildRow (labels : List ℕ) : List ℚ → ℕ → Option (List (ℚ × ℕ) × ℕ)
  | [], idx => some ([], idx)
  | q :: rest, idx =>
    if 0 < q then
      match labels.get? idx with
      | some l => (buildRow labels rest (idx + 1)).map (fun ei => ((q, l) :: ei.1, ei.2))
      | none => none
    else buildRow labels rest idx

/-- The traversal of `kmeans::build_clustered_orders` (an entry is created
for every price, even when no quantity at it is positive). -/
def buildAll (labels : List ℕ) : Book → ℕ → Option (List (ℚ × List (ℚ × ℕ)))
  | [], _ => some []
  | e :: rest, idx =>
    match buildRow labels e.2 idx with
    | none => none
    | some ei => (buildAll labels rest ei.2).map (fun r => (e.1, ei.1) :: r)

/-- `kmeans::build_clustered_orders`; `none` models the indexing panic. -/
def build_clustered_orders (ob : Book) (labels : List ℕ) :
    Option (List (ℚ × List (ℚ × ℕ))) :=
  buildAll labels ob 0

/-- Flattened `(qty, label)` stream of a clustered book, in traversal order. -/
def flattenLabeled (r : List (ℚ × List (ℚ × ℕ))) : List (ℚ × ℕ) :=
  r.foldl (fun acc e => acc ++ e.2) []

/-! ## Finite-map laws of the association-list book -/

theorem lookupP_insertP (b : Book) (p : ℚ) (v : List ℚ) (r : ℚ) :
    lookupP (insertP b p v) r = if r = p then some v else lookupP b r := by
  induction b with
  | nil =>
    by_cases h : r = p
    · simp [insertP, lookupP, h]
    · simp [insertP, lookupP, h, Ne.symm h]
  | cons e t ih =>
    by_cases hp : e.1 = p
    · by_cases h : r = p
      · simp [insertP, lookupP, hp, h]
      · have he : e.1 ≠ r := fun hh => h (hh ▸ hp)
        simp [insertP, lookupP, hp, h, Ne.symm h, he]
    · simp only [insertP, if_neg hp, lookupP]
      rw [ih]
      by_cases h : r = p
      · by_cases he : e.1 = r
        · exact absurd (he.trans h) hp
        · simp [h, hp]
      · simp [h]

theorem lookupP_eraseP (b : Book) (p r : ℚ) :
    lookupP (eraseP b p) r = if r = p then none else lookupP b r := by
  induction b with
  | nil => simp [eraseP, lookupP]
  | cons e t ih =>
    simp only [eraseP, decide_not] at ih ⊢
    rw [List.filter_cons]
    by_cases hep : e.1 = p
    · rw [if_neg (by simp [hep])]
      rw [ih]
      by_cases h : r = p
      · simp [h]
      · have he : e.1 ≠ r := fun hh => h (hh ▸ hep)
        simp [h, lookupP, he]
    · rw [if_pos (by simp [hep])]
      simp only [lookupP]
      rw [ih]
      by_cases he : e.1 = r
      · have h : ¬ r = p := fun hh => hep (he.trans hh)
        simp [he, h]
      · simp [he, lookupP]

theorem mem_insertP {b : Book} {p : ℚ} {v : List ℚ} {e : ℚ × List ℚ}
    (h : e ∈ insertP b p v) : e ∈ b ∨ e = (p, v) := by
  induction b with
  | nil => simp only [insertP, List.mem_singleton] at h; exact Or.inr h
  | cons f t ih =>
    by_cases hf : f.1 = p
    · simp only [insertP, if_pos hf, List.mem_cons] at h
      rcases h with h | h
      · exact Or.inr h
      · exact Or.inl (List.mem_cons_of_mem _ h)
    · simp only [insertP, if_neg hf, List.mem_cons] at h
      rcases h with h | h
      · exact Or.inl (h ▸ List.mem_cons_self _ _)
      · rcases ih h with h2 | h2
        · exact Or.inl (List.mem_cons_of_mem _ h2)
        · exact Or.inr h2

theorem mem_eraseP {b : Book} {p : ℚ} {e : ℚ × List ℚ} (h : e ∈ eraseP b p) : e ∈ b :=
  List.mem_of_mem_filter h

theorem lookupP_mem {b : Book} {p : ℚ} {S : List ℚ} (h : lookupP b p = some S) :
    (p, S) ∈ b := by
  induction b with
  | nil => simp [lookupP] at h
  | cons e t ih =>
    simp only [lookupP] at h
    by_cases he : e.1 = p
    · rw [if_pos he] at h
      have : e = (p, S) := Prod.ext he (Option.some_injective _ h)
      exact this ▸ List.mem_cons_self _ _
    · rw [if_neg he] at h
      exact List.mem_cons_of_mem _ (ih h)

/-! ## List helper lemmas -/

theorem sum_eraseIdx : ∀ (l : List ℚ) (i : ℕ), i < l.length →
    (l.eraseIdx i).sum = l.sum - l.getD i 0
  | [], i, h => by simp at h
  | x :: t, 0, _ => by simp [List.eraseIdx]
  | x :: t, i + 1, h => by
    have hi : i < t.length := by simpa using h
    simp only [List.eraseIdx, List.sum_cons, List.getD_cons_succ,
      sum_eraseIdx t i hi]
    ring

theorem rposIdx_lt : ∀ {l : List ℚ} {a : ℚ} {i : ℕ}, rposIdx l a = some i → i < l.length := by
  intro l
  induction l with
  | nil => intro a i h; simp [rposIdx] at h
  | cons x t ih =>
    intro a i h
    simp only [rposIdx] at h
    cases ht : rposIdx t a with
    | some j =>
      rw [ht] at h
      cases h
      exact Nat.succ_lt_succ (ih ht)
    | none =>
      rw [ht] at h
      by_cases hx : x = a
      · rw [if_pos hx] at h; cases h; simp
      · rw [if_neg hx] at h; cases h

theorem rposIdx_getD : ∀ {l : List ℚ} {a : ℚ} {i : ℕ}, rposIdx l a = some i →
    l.getD i 0 = a := by
  intro l
  induction l with
  | nil => intro a i h; simp [rposIdx] at h
  | cons x t ih =>
    intro a i h
    simp only [rposIdx] at h
    cases ht : rposIdx t a with
    | some j =>
      rw [ht] at h
      cases h
      simpa using ih ht
    | none =>
      rw [ht] at h
      by_cases hx : x = a
      · rw [if_pos hx] at h; cases h; simpa using hx
      · rw [if_neg hx] at h; cases h

theorem getD_mem_of_lt {α : Type} {d : α} : ∀ {l : List α} {j : ℕ}, j < l.length →
    l.getD j d ∈ l := by
  intro l
  induction l with
  | nil => intro j h; simp at h
  | cons x t ih =>
    intro j h
    cases j with
    | zero => simp
    | succ j2 =>
      have : j2 < t.length := by simpa using h
      simpa using Or.inr (ih this)

theorem rposIdx_none : ∀ {l : List ℚ} {a : ℚ}, rposIdx l a = none → ∀ x ∈ l, x ≠ a := by
  intro l
  induction l with
  | nil => intro a _ x hx; simp at hx
  | cons y t ih =>
    intro a h x hx
    simp only [rposIdx] at h
    cases ht : rposIdx t a with
    | some j => rw [ht] at h; cases h
    | none =>
      rw [ht] at h
      by_cases hy : y = a
      · rw [if_pos hy] at h; cases h
      · rw [if_neg hy] at h
        rcases List.mem_cons.mp hx with h2 | h2
        · exact h2 ▸ hy
        · exact ih ht x h2

theorem rposIdx_rightmost : ∀ {l : List ℚ} {a : ℚ} {i : ℕ}, rposIdx l a = some i →
    ∀ j, i < j → j < l.length → l.getD j 0 ≠ a := by
  intro l
  induction l with
  | nil => intro a i h; simp [rposIdx] at h
  | cons x t ih =>
    intro a i h j hij hj
    simp only [rposIdx] at h
    cases ht : rposIdx t a with
    | some k =>
      rw [ht] at h
      cases h
      cases j with
      | zero => omega
      | succ j2 =>
        have : j2 < t.length := by simpa using hj
        simpa using ih ht j2 (by omega) this
    | none =>
      rw [ht] at h
      by_cases hx : x = a
      · rw [if_pos hx] at h
        cases h
        cases j with
        | zero => omega
        | succ j2 =>
          have hj2 : j2 < t.length := by simpa using hj
          have hmem : t.getD j2 0 ∈ t := getD_mem_of_lt hj2
          simpa using rposIdx_none ht _ hmem
      · rw [if_neg hx] at h; cases h

theorem lposIdx_lt : ∀ {l : List ℚ} {a : ℚ} {j : ℕ}, lposIdx l a = some j → j < l.length := by
  intro l
  induction l with
  | nil => intro a j h; simp [lposIdx] at h
  | cons x t ih =>
    intro a j h
    simp only [lposIdx] at h
    by_cases hx : x = a
    · rw [if_pos hx] at h; cases h; simp
    · rw [if_neg hx] at h
      cases ht : lposIdx t a with
      | some k =>
        rw [ht] at h
        simp only [Option.map_some'] at h
        cases h
        exact Nat.succ_lt_succ (ih ht)
      | none => rw [ht] at h; simp at h

theorem lposIdx_getD : ∀ {l : List ℚ} {a : ℚ} {j : ℕ}, lposIdx l a = some j →
    l.getD j 0 = a := by
  intro l
  induction l with
  | nil => intro a j h; simp [lposIdx] at h
  | cons x t ih =>
    intro a j h
    simp only [lposIdx] at h
    by_cases hx : x = a
    · rw [if_pos hx] at h; cases h; simpa using hx
    · rw [if_neg hx] at h
      cases ht : lposIdx t a with
      | some k =>
        rw [ht] at h
        simp only [Option.map_some'] at h
        cases h
        simpa using ih ht
      | none => rw [ht] at h; simp at h

theorem lposIdx_of_mem : ∀ {l : List ℚ} {a : ℚ}, a ∈ l → ∃ j, lposIdx l a = some j := by
  intro l
  induction l with
  | nil => intro a h; simp at h
  | cons x t ih =>
    intro a h
    by_cases hx : x = a
    · exact ⟨0, by simp [lposIdx, hx]⟩
    · rcases List.mem_cons.mp h with h2 | h2
      · exact absurd h2.symm hx
      · rcases ih h2 with ⟨j, hj⟩
        exact ⟨j + 1, by simp [lposIdx, hx, hj]⟩

theorem foldl_max_le : ∀ (t : List ℚ) (x : ℚ), x ≤ t.foldl max x ∧ ∀ z ∈ t, z ≤ t.foldl max x := by
  intro t
  induction t with
  | nil => intro x; exact ⟨le_refl x, by simp⟩
  | cons y t2 ih =>
    intro x
    simp only [List.foldl_cons]
    refine ⟨le_trans (le_max_left x y) (ih (max x y)).1, ?_⟩
    intro z hz
    rcases List.mem_cons.mp hz with h3 | h3
    · rw [h3]; exact le_trans (le_max_right x y) (ih (max x y)).1
    · exact (ih (max x y)).2 z h3

theorem le_listMax {l : List ℚ} : ∀ x ∈ l, x ≤ listMax l := by
  cases l with
  | nil => simp
  | cons y t =>
    intro x hx
    simp only [listMax]
    rcases List.mem_cons.mp hx with h | h
    · exact h ▸ (foldl_max_le t y).1
    · exact (foldl_max_le t y).2 x h

theorem foldl_max_mem : ∀ (t : List ℚ) (x : ℚ), t.foldl max x = x ∨ t.foldl max x ∈ t := by
  intro t
  induction t with
  | nil => intro x; exact Or.inl rfl
  | cons y t2 ih =>
    intro x
    simp only [List.foldl_cons]
    rcases ih (max x y) with h | h
    · rcases max_choice x y with h2 | h2
      · exact Or.inl (by rw [h, h2])
      · refine Or.inr ?_
        rw [h, h2]
        exact List.mem_cons_self _ _
    · exact Or.inr (List.mem_cons_of_mem _ h)

theorem listMax_mem {l : List ℚ} (h : l ≠ []) : listMax l ∈ l := by
  cases l with
  | nil => exact absurd rfl h
  | cons y t =>
    simp only [listMax]
    rcases foldl_max_mem t y with h2 | h2
    · rw [h2]; exact List.mem_cons_self _ _
    · exact List.mem_cons_of_mem _ h2

/-! ## Per-row behaviour of the L3 decomposition heuristic -/

theorem applyBidRow_eq_ask {b : Book} {p q : ℚ} (h : 0 ≤ q) :
    applyBidRow b p q = applyAskRow b p q := by
  by_cases h0 : q = 0
  · simp [applyBidRow, applyAskRow, h0]
  · have : 0 < q := lt_of_le_of_ne h (Ne.symm h0)
    simp [applyBidRow, applyAskRow, h0, this]

/-- A row `(p, q)` with `q ≥ 0` sets the aggregate at `p` to `q` (absent when
`q = 0`), leaves every other price's aggregate alone, and keeps all levels
nonempty. -/
theorem applyAskRow_agg (b : Book) (p q : ℚ) (hne : nonEmptyLevels b) (_hq : 0 ≤ q) :
    (∀ r, aggOf (applyAskRow b p q) r =
      if r = p then (if q = 0 then none else some q) else aggOf b r) ∧
    nonEmptyLevels (applyAskRow b p q) := by
  by_cases hq0 : q = 0
  · constructor
    · intro r
      simp only [applyAskRow, if_pos hq0, aggOf, hq0]
      by_cases h : r = p
      · simp [h, lookupP_eraseP]
      · simp [h, lookupP_eraseP]
    · intro e he
      exact hne e (mem_eraseP (by simpa [applyAskRow, hq0] using he))
  · simp only [applyAskRow, if_neg hq0]
    unfold applyRowCore
    cases hS : lookupP b p with
    | none =>
      simp only []
      constructor
      · intro r
        simp only [aggOf, lookupP_insertP]
        by_cases h : r = p
        · simp [h, hq0]
        · simp [h]
      · intro e he
        rcases mem_insertP he with h | h
        · exact hne e h
        · rw [h]; simp
    | some S =>
      have hSne : S ≠ [] := hne _ (lookupP_mem hS)
      simp only []
      by_cases h1 : S.sum > q
      · rw [if_pos h1]
        cases hr : rposIdx S (S.sum - q) with
        | some i =>
          simp only []
          have hsum : (S.eraseIdx i).sum = q := by
            rw [sum_eraseIdx S i (rposIdx_lt hr), rposIdx_getD hr]; ring
          constructor
          · intro r
            simp only [aggOf, lookupP_insertP]
            by_cases h : r = p
            · simp [h, hq0, hsum]
            · simp [h]
          · intro e he
            rcases mem_insertP he with h | h
            · exact hne e h
            · rw [h]
              intro hc
              simp only at hc
              rw [hc] at hsum
              simp only [List.sum_nil] at hsum
              exact hq0 hsum.symm
        | none =>
          simp only []
          obtain ⟨j, hj⟩ := lposIdx_of_mem (listMax_mem hSne)
          rw [hj]
          simp only []
          have hsum2 : (S.eraseIdx j ++ [listMax S - (S.sum - q)]).sum = q := by
            rw [List.sum_append, sum_eraseIdx S j (lposIdx_lt hj), lposIdx_getD hj]
            simp only [List.sum_cons, List.sum_nil]
            ring
          constructor
          · intro r
            simp only [aggOf, lookupP_insertP]
            by_cases h : r = p
            · simp [h, hq0, hsum2]
            · simp [h]
          · intro e he
            rcases mem_insertP he with h | h
            · exact hne e h
            · rw [h]; simp
      · rw [if_neg h1]
        by_cases h2 : S.sum < q
        · rw [if_pos h2]
          have hsum3 : (S ++ [q - S.sum]).sum = q := by
            rw [List.sum_append]
            simp only [List.sum_cons, List.sum_nil]
            ring
          constructor
          · intro r
            simp only [aggOf, lookupP_insertP]
            by_cases h : r = p
            · simp [h, hq0, hsum3]
            · simp [h]
          · intro e he
            rcases mem_insertP he with h | h
            · exact hne e h
            · rw [h]; simp
        · rw [if_neg h2]
          have heq : S.sum = q := le_antisymm (not_lt.mp h1) (not_lt.mp h2)
          constructor
          · intro r
            by_cases h : r = p
            · simp [aggOf, h, hS, heq, hq0]
            · simp [h]
          · exact hne

theorem lastReported_congr : ∀ (rows : List (ℚ × ℚ)) (m1 m2 : ℚ → Option ℚ),
    (∀ r, m1 r = m2 r) → ∀ r, lastReported rows m1 r = lastReported rows m2 r := by
  intro rows
  induction rows with
  | nil => intro m1 m2 h r; exact h r
  | cons pq rest ih =>
    intro m1 m2 h r
    exact ih _ _ (fun rr => by by_cases hh : rr = pq.1 <;> simp [hh, h rr]) r

theorem applyRows_agg : ∀ (rows : List (ℚ × ℚ)) (b : Book),
    nonEmptyLevels b → rowsNonneg rows →
    (∀ r, aggOf (rows.foldl (fun bb pq => applyAskRow bb pq.1 pq.2) b) r =
      lastReported rows (aggOf b) r) ∧
    nonEmptyLevels (rows.foldl (fun bb pq => applyAskRow bb pq.1 pq.2) b) := by
  intro rows
  induction rows with
  | nil => intro b hb _; exact ⟨fun r => rfl, hb⟩
  | cons pq rest ih =>
    intro b hb hrows
    have hq : 0 ≤ pq.2 := hrows pq (List.mem_cons_self _ _)
    have hrow := applyAskRow_agg b pq.1 pq.2 hb hq
    have hrest : rowsNonneg rest := fun e he => hrows e (List.mem_cons_of_mem _ he)
    have ihh := ih (applyAskRow b pq.1 pq.2) hrow.2 hrest
    constructor
    · intro r
      simp only [List.foldl_cons]
      rw [ihh.1 r]
      exact lastReported_congr rest _ _ hrow.1 r
    · simp only [List.foldl_cons]
      exact ihh.2

theorem foldl_bid_eq_ask : ∀ (rows : List (ℚ × ℚ)) (b : Book), rowsNonneg rows →
    rows.foldl (fun bb pq => applyBidRow bb pq.1 pq.2) b =
    rows.foldl (fun bb pq => applyAskRow bb pq.1 pq.2) b := by
  intro rows
  induction rows with
  | nil => intro b _; rfl
  | cons pq rest ih =>
    intro b h
    simp only [List.foldl_cons]
    rw [applyBidRow_eq_ask (h pq (List.mem_cons_self _ _))]
    exact ih _ (fun e he => h e (List.mem_cons_of_mem _ he))

/-- A guarded row keeps every element strictly positive. -/
theorem applyAskRow_pos (b : Book) (p q : ℚ) (hb : bookAllPos b) (hq : 0 ≤ q)
    (hg : rowGuardB b p q = true) : bookAllPos (applyAskRow b p q) := by
  by_cases hq0 : q = 0
  · intro e he
    exact hb e (mem_eraseP (by simpa [applyAskRow, hq0] using he))
  · have hqpos : 0 < q := lt_of_le_of_ne hq (Ne.symm hq0)
    simp only [applyAskRow, if_neg hq0]
    unfold applyRowCore
    unfold rowGuardB at hg
    cases hS : lookupP b p with
    | none =>
      simp only []
      intro e he
      rcases mem_insertP he with h | h
      · exact hb e h
      · rw [h]
        intro x hx
        simp only [List.mem_singleton] at hx
        exact hx ▸ hqpos
    | some S =>
      rw [hS] at hg
      simp only [] at hg ⊢
      have hSpos : ∀ x ∈ S, 0 < x := hb _ (lookupP_mem hS)
      by_cases h1 : S.sum > q
      · rw [if_pos h1]
        rw [if_pos h1] at hg
        cases hr : rposIdx S (S.sum - q) with
        | some i =>
          simp only []
          intro e he
          rcases mem_insertP he with h | h
          · exact hb e h
          · rw [h]
            intro x hx
            exact hSpos x (List.Sublist.mem hx (List.eraseIdx_sublist S i))
        | none =>
          simp only []
          have hSne : S ≠ [] := by
            intro hc
            rw [hc] at h1
            simp only [List.sum_nil] at h1
            exact absurd h1 (not_lt.mpr hq)
          simp only [Bool.or_eq_true, List.any_eq_true, decide_eq_true_eq] at hg
          have hlt : S.sum - q < listMax S := by
            rcases hg with hg | hg
            · rcases hg with ⟨x, hx, hxe⟩
              exact absurd hxe (rposIdx_none hr x hx)
            · exact hg
          obtain ⟨j, hj⟩ := lposIdx_of_mem (listMax_mem hSne)
          rw [hj]
          simp only []
          intro e he
          rcases mem_insertP he with h | h
          · exact hb e h
          · rw [h]
            intro x hx
            rcases List.mem_append.mp hx with h2 | h2
            · exact hSpos x (List.Sublist.mem h2 (List.eraseIdx_sublist S j))
            · simp only [List.mem_singleton] at h2
              rw [h2]
              exact sub_pos.mpr hlt
      · rw [if_neg h1]
        by_cases h2 : S.sum < q
        · rw [if_pos h2]
          intro e he
          rcases mem_insertP he with h | h
          · exact hb e h
          · rw [h]
            intro x hx
            rcases List.mem_append.mp hx with h3 | h3
            · exact hSpos x h3
            · simp only [List.mem_singleton] at h3
              rw [h3]
              exact sub_pos.mpr h2
        · rw [if_neg h2]
          exact hb

theorem applyRows_pos : ∀ (rows : List (ℚ × ℚ)) (b : Book), bookAllPos b →
    rowsNonneg rows → sideGuardB b rows = true →
    bookAllPos (rows.foldl (fun bb pq => applyAskRow bb pq.1 pq.2) b) := by
  intro rows
  induction rows with
  | nil => intro b hb _ _; exact hb
  | cons pq rest ih =>
    intro b hb hrows hg
    simp only [sideGuardB, Bool.and_eq_true] at hg
    simp only [List.foldl_cons]
    exact ih _ (applyAskRow_pos b pq.1 pq.2 hb (hrows pq (List.mem_cons_self _ _)) hg.1)
      (fun e he => hrows e (List.mem_cons_of_mem _ he)) hg.2

/-! ## Claim theorems for the replica engine -/

/-- C1 (counterexample): from the empty replica, apply snapshot
`{last_update_id 10, bids [(100, 5)]}`, then the straddling diff
`{U 10, u 11, bids [(100, 7)]}` (giving level `[5, 2]`, synced), then the
contiguous diff `{U 12, u 12, pu 11, bids [(100, 1)]}`. The shrink delta is 6,
no element equals 6, the largest element is 5, and `5 - 6 = -1` is appended:
the reachable replica ends with level `[2, -1]`, so the claimed strict
positivity of every element (in particular of the appended `L - delta`) is
false on the code. -/
theorem C1_counterexample :
    lookupP (process_update (process_update (handleSnapshot ⟨[], [], 0, false, []⟩
        ⟨10, [(100, 5)], []⟩).1 ⟨0, 0, "", 10, 11, 9, [(100, 7)], []⟩).1
        ⟨0, 0, "", 12, 12, 11, [(100, 1)], []⟩).1.bids 100 = some [2, -1] ∧
    ¬ bookAllPos (process_update (process_update (handleSnapshot ⟨[], [], 0, false, []⟩
        ⟨10, [(100, 5)], []⟩).1 ⟨0, 0, "", 10, 11, 9, [(100, 7)], []⟩).1
        ⟨0, 0, "", 12, 12, 11, [(100, 1)], []⟩).1.bids := by
  have ht : Int.toNat 11 = 11 := by simp
  have hstate : (process_update (process_update (handleSnapshot ⟨[], [], 0, false, []⟩
      ⟨10, [(100, 5)], []⟩).1 ⟨0, 0, "", 10, 11, 9, [(100, 7)], []⟩).1
      ⟨0, 0, "", 12, 12, 11, [(100, 1)], []⟩).1.bids = [(100, [2, -1])] := by
    norm_num [process_update, apply_update, handleSnapshot, drainFuel, snapBook,
      applyBidRow, applyAskRow, applyRowCore, lookupP, insertP, eraseP,
      rposIdx, lposIdx, listMax, ht]
  rw [hstate]
  constructor
  · norm_num [lookupP]
  · intro h
    have := h (100, [2, -1]) (by simp) (-1) (by simp)
    norm_num at this

/-- C1 (amended): after an applied event every element of every level on both
sides is strictly positive, provided every shrink row's delta is either
matched exactly by an element or smaller than the level's largest element
(the guard exactly rules out the `L - delta ≤ 0` fallback); the appended
`L - delta` is then strictly positive. -/
theorem C1_guarded_positivity (s : ReplicaState) (u : DepthUpdate)
    (hb : bookAllPos s.bids) (ha : bookAllPos s.asks)
    (hub : rowsNonneg u.bids) (hua : rowsNonneg u.asks)
    (hgb : sideGuardB s.bids u.bids = true) (hga : sideGuardB s.asks u.asks = true) :
    bookAllPos (apply_update s u).bids ∧ bookAllPos (apply_update s u).asks := by
  constructor
  · have heq : (apply_update s u).bids =
        u.bids.foldl (fun bb pq => applyAskRow bb pq.1 pq.2) s.bids :=
      foldl_bid_eq_ask u.bids s.bids hub
    rw [heq]
    exact applyRows_pos u.bids s.bids hb hub hgb
  · exact applyRows_pos u.asks s.asks ha hua hga

theorem C1_guarded_positivity_witness :
    bookAllPos (apply_update ⟨[(100, [5, 2])], [(101, [3])], 11, true, []⟩
      ⟨0, 0, "", 12, 12, 11, [(100, 5)], [(101, 4)]⟩).bids :=
  (C1_guarded_positivity ⟨[(100, [5, 2])], [(101, [3])], 11, true, []⟩
    ⟨0, 0, "", 12, 12, 11, [(100, 5)], [(101, 4)]⟩
    (by norm_num [bookAllPos]) (by norm_num [bookAllPos])
    (by norm_num [rowsNonneg]) (by norm_num [rowsNonneg])
    (by norm_num [sideGuardB, rowGuardB, applyAskRow, applyRowCore, lookupP,
      insertP, rposIdx, lposIdx, listMax])
    (by norm_num [sideGuardB, rowGuardB, applyAskRow, applyRowCore, lookupP,
      insertP, rposIdx, lposIdx, listMax])).1

/-- C2: for a replica whose levels are nonempty and an applied diff with
nonnegative row quantities, every price present after `apply_update` maps to
a nonempty sequence whose sum is the last aggregate reported for it: the last
row quantity for touched prices (absent if that quantity is 0), the previous
aggregate for untouched prices. -/
theorem C2_level_sums (s : ReplicaState) (u : DepthUpdate)
    (hb : nonEmptyLevels s.bids) (ha : nonEmptyLevels s.asks)
    (hub : rowsNonneg u.bids) (hua : rowsNonneg u.asks) :
    (∀ p, aggOf (apply_update s u).bids p = lastReported u.bids (aggOf s.bids) p) ∧
    (∀ p, aggOf (apply_update s u).asks p = lastReported u.asks (aggOf s.asks) p) ∧
    nonEmptyLevels (apply_update s u).bids ∧ nonEmptyLevels (apply_update s u).asks := by
  have hbids := applyRows_agg u.bids s.bids hb hub
  have hasks := applyRows_agg u.asks s.asks ha hua
  have heq : (apply_update s u).bids =
      u.bids.foldl (fun bb pq => applyAskRow bb pq.1 pq.2) s.bids :=
    foldl_bid_eq_ask u.bids s.bids hub
  refine ⟨fun p => ?_, fun p => ?_, ?_, ?_⟩
  · rw [heq]; exact hbids.1 p
  · exact hasks.1 p
  · rw [heq]; exact hbids.2
  · exact hasks.2

theorem C2_level_sums_witness :
    aggOf (apply_update ⟨[(100, [5])], [(101, [3])], 10, true, []⟩
      ⟨0, 0, "", 11, 11, 10, [(100, 7)], [(101, 0)]⟩).bids 100 =
    lastReported [(100, 7)] (aggOf [(100, [5])]) 100 :=
  (C2_level_sums ⟨[(100, [5])], [(101, [3])], 10, true, []⟩
    ⟨0, 0, "", 11, 11, 10, [(100, 7)], [(101, 0)]⟩
    (by norm_num [nonEmptyLevels]) (by norm_num [nonEmptyLevels])
    (by norm_num [rowsNonneg]) (by norm_num [rowsNonneg])).1 100

/-- C3: a diff row `(p, q)` with `0 < q < sum S` on a present level `S`
removes exactly the rightmost element equal to `delta = sum S - q` when one
exists (other prices untouched), and otherwise removes the largest element
`L` and appends `L - delta` at the end. -/
theorem C3_shrink (side : Book) (p q : ℚ) (S : List ℚ)
    (hS : lookupP side p = some S) (h0 : 0 < q) (hq : q < S.sum) :
    (∀ r, r ≠ p → lookupP (applyAskRow side p q) r = lookupP side r) ∧
    (∀ i, rposIdx S (S.sum - q) = some i →
      (i < S.length ∧ S.getD i 0 = S.sum - q ∧
        ∀ j, i < j → j < S.length → S.getD j 0 ≠ S.sum - q) ∧
      lookupP (applyAskRow side p q) p = some (S.eraseIdx i)) ∧
    (rposIdx S (S.sum - q) = none →
      (∀ x ∈ S, x ≠ S.sum - q) ∧
      ∀ j, lposIdx S (listMax S) = some j →
        (j < S.length ∧ S.getD j 0 = listMax S ∧ ∀ x ∈ S, x ≤ listMax S) ∧
        lookupP (applyAskRow side p q) p =
          some (S.eraseIdx j ++ [listMax S - (S.sum - q)])) := by
  have hq0 : ¬ q = 0 := fun h => absurd (h ▸ h0) (lt_irrefl 0)
  have happ : applyAskRow side p q = applyRowCore side p q := by
    simp [applyAskRow, hq0]
  refine ⟨?_, ?_, ?_⟩
  · intro r hr
    rw [happ]
    unfold applyRowCore
    rw [hS]
    simp only []
    rw [if_pos hq]
    cases hrp : rposIdx S (S.sum - q) with
    | some i => simp [lookupP_insertP, hr]
    | none =>
      simp only []
      cases hl : lposIdx S (listMax S) with
      | some j => simp [lookupP_insertP, hr]
      | none => rfl
  · intro i hi
    refine ⟨⟨rposIdx_lt hi, rposIdx_getD hi, rposIdx_rightmost hi⟩, ?_⟩
    rw [happ]
    unfold applyRowCore
    rw [hS]
    simp only []
    rw [if_pos hq, hi]
    simp [lookupP_insertP]
  · intro hnone
    refine ⟨rposIdx_none hnone, ?_⟩
    intro j hj
    refine ⟨⟨lposIdx_lt hj, lposIdx_getD hj, le_listMax⟩, ?_⟩
    rw [happ]
    unfold applyRowCore
    rw [hS]
    simp only []
    rw [if_pos hq, hnone, hj]
    simp [lookupP_insertP]

theorem C3_shrink_witness :
    lookupP (applyAskRow [(100, [5, 2])] 100 5) 100 = some ([5, 2].eraseIdx 1) :=
  ((C3_shrink [(100, [5, 2])] 100 5 [5, 2] (by norm_num [lookupP]) (by norm_num)
    (by norm_num)).2.1 1 (by norm_num [rposIdx])).2

/-- C4 (counterexample): the S1 scenario does not sync. After the snapshot
`{last_update_id 10, bids [(100, 5)], asks [(101, 3)]}`, the diff
`{U 11, u 11, pu 10, bids [(100, 7)]}` fails the straddle test
`capital_u ≤ last_applied_u` (11 ≤ 10 is false), so it is rejected as an
initial gap: the claimed outcome (bids {100: [5, 2]}, last_applied_u 11,
synced) is false on the code. -/
theorem C4_counterexample :
    ¬(lookupP (handleUpdate (handleSnapshot ⟨[], [], 0, false, []⟩
          ⟨10, [(100, 5)], [(101, 3)]⟩).1
          ⟨0, 0, "", 11, 11, 10, [(100, 7)], []⟩).1.bids 100 = some [5, 2] ∧
      lookupP (handleUpdate (handleSnapshot ⟨[], [], 0, false, []⟩
          ⟨10, [(100, 5)], [(101, 3)]⟩).1
          ⟨0, 0, "", 11, 11, 10, [(100, 7)], []⟩).1.asks 101 = some [3] ∧
      (handleUpdate (handleSnapshot ⟨[], [], 0, false, []⟩
          ⟨10, [(100, 5)], [(101, 3)]⟩).1
          ⟨0, 0, "", 11, 11, 10, [(100, 7)], []⟩).1.last_applied_u = 11 ∧
      (handleUpdate (handleSnapshot ⟨[], [], 0, false, []⟩
          ⟨10, [(100, 5)], [(101, 3)]⟩).1
          ⟨0, 0, "", 11, 11, 10, [(100, 7)], []⟩).1.is_synced = true) := by
  intro h
  have hsync : (handleUpdate (handleSnapshot ⟨[], [], 0, false, []⟩
      ⟨10, [(100, 5)], [(101, 3)]⟩).1
      ⟨0, 0, "", 11, 11, 10, [(100, 7)], []⟩).1.is_synced = false := by
    norm_num [handleUpdate, process_update, apply_update, handleSnapshot, drainFuel,
      snapBook, applyBidRow, applyAskRow, applyRowCore, lookupP, insertP, eraseP,
      rposIdx, lposIdx, listMax, Int.toNat_ofNat]
  rw [hsync] at h
  cases h.2.2.2

/-- C4 (amended): on the S1 inputs the code detects an initial gap: the book
stays at the snapshot (bids {100: [5]}, asks {101: [3]}),
`last_applied_u = 10`, `is_synced = false`, and Refetch is issued. -/
theorem C4_actual_outcome :
    lookupP (handleUpdate (handleSnapshot ⟨[], [], 0, false, []⟩
        ⟨10, [(100, 5)], [(101, 3)]⟩).1
        ⟨0, 0, "", 11, 11, 10, [(100, 7)], []⟩).1.bids 100 = some [5] ∧
    lookupP (handleUpdate (handleSnapshot ⟨[], [], 0, false, []⟩
        ⟨10, [(100, 5)], [(101, 3)]⟩).1
        ⟨0, 0, "", 11, 11, 10, [(100, 7)], []⟩).1.asks 101 = some [3] ∧
    (handleUpdate (handleSnapshot ⟨[], [], 0, false, []⟩
        ⟨10, [(100, 5)], [(101, 3)]⟩).1
        ⟨0, 0, "", 11, 11, 10, [(100, 7)], []⟩).1.last_applied_u = 10 ∧
    (handleUpdate (handleSnapshot ⟨[], [], 0, false, []⟩
        ⟨10, [(100, 5)], [(101, 3)]⟩).1
        ⟨0, 0, "", 11, 11, 10, [(100, 7)], []⟩).1.is_synced = false ∧
    (handleUpdate (handleSnapshot ⟨[], [], 0, false, []⟩
        ⟨10, [(100, 5)], [(101, 3)]⟩).1
        ⟨0, 0, "", 11, 11, 10, [(100, 7)], []⟩).2 = true := by
  norm_num [handleUpdate, process_update, apply_update, handleSnapshot, drainFuel,
    snapBook, applyBidRow, applyAskRow, applyRowCore, lookupP, insertP, eraseP,
    rposIdx, lposIdx, listMax, Int.toNat_ofNat]

/-- C5 (counterexample): a synced replica at `last_applied_u = 10` applies the
diff `{U 10, u 10, pu 10}` (not stale: `u < last` fails; no gap: `pu = last`),
yet `last_applied_u` stays 10, not strictly greater. -/
theorem C5_counterexample :
    isApplied ⟨[], [], 10, true, []⟩ ⟨0, 0, "", 10, 10, 10, [], []⟩ = true ∧
    ¬(10 < (process_update ⟨[], [], 10, true, []⟩
        ⟨0, 0, "", 10, 10, 10, [], []⟩).1.last_applied_u) := by
  decide

/-- C5 (amended): an applied diff sets `last_applied_u` to its `small_u`,
which is at least the prior value; strictly greater exactly when `small_u`
differs from the prior value. -/
theorem C5_applied_monotone (s : ReplicaState) (u : DepthUpdate)
    (h : isApplied s u = true) :
    (process_update s u).1.last_applied_u = u.small_u ∧
    s.last_applied_u ≤ (process_update s u).1.last_applied_u ∧
    (u.small_u ≠ s.last_applied_u →
      s.last_applied_u < (process_update s u).1.last_applied_u) := by
  unfold isApplied at h
  unfold process_update
  by_cases h1 : u.small_u < s.last_applied_u
  · rw [if_pos h1] at h; cases h
  · rw [if_neg h1] at h ⊢
    have hle : s.last_applied_u ≤ u.small_u := not_lt.mp h1
    by_cases h2 : s.is_synced = true
    · rw [if_pos h2] at h ⊢
      by_cases h3 : 0 ≤ u.pu ∧ u.pu.toNat ≠ s.last_applied_u
      · simp [h3] at h
      · rw [if_neg h3]
        exact ⟨rfl, hle, fun hne => lt_of_le_of_ne hle (Ne.symm hne)⟩
    · rw [if_neg h2] at h ⊢
      have h4 := of_decide_eq_true h
      rw [if_pos h4]
      exact ⟨rfl, hle, fun hne => lt_of_le_of_ne hle (Ne.symm hne)⟩

theorem C5_applied_monotone_witness :
    (process_update ⟨[], [], 10, true, []⟩
      ⟨0, 0, "", 11, 12, 10, [], []⟩).1.last_applied_u = 12 :=
  (C5_applied_monotone ⟨[], [], 10, true, []⟩ ⟨0, 0, "", 11, 12, 10, [], []⟩
    (by decide)).1

/-- C6 (counterexample): a stale diff (`small_u < last_applied_u`) with a pu
mismatch satisfies the claim's gap characterization (synced, `pu ≥ 0`,
`pu ≠ last_applied_u`), but the code discards it first: no Refetch is issued
and the pending buffer is not cleared. -/
theorem C6_counterexample :
    (⟨[], [], 10, true, [⟨0, 0, "", 10, 10, 10, [], []⟩]⟩ : ReplicaState).is_synced = true ∧
    0 ≤ (⟨0, 0, "", 5, 5, 7, [], []⟩ : DepthUpdate).pu ∧
    (⟨0, 0, "", 5, 5, 7, [], []⟩ : DepthUpdate).pu.toNat ≠
      (⟨[], [], 10, true, [⟨0, 0, "", 10, 10, 10, [], []⟩]⟩ : ReplicaState).last_applied_u ∧
    (process_update ⟨[], [], 10, true, [⟨0, 0, "", 10, 10, 10, [], []⟩]⟩
      ⟨0, 0, "", 5, 5, 7, [], []⟩).2 = false ∧
    (process_update ⟨[], [], 10, true, [⟨0, 0, "", 10, 10, 10, [], []⟩]⟩
      ⟨0, 0, "", 5, 5, 7, [], []⟩).1.update_buffer ≠ [] := by
  decide

/-- C6 (amended): on a non-stale diff on which a gap is detected (synced with
`pu ≥ 0` and `pu ≠ last_applied_u`, or not synced and not straddling), the
replica's sides, `last_applied_u` and `is_synced` are unchanged, the pending
buffer is cleared, and Refetch is issued via the non-blocking try-send. -/
theorem C6_gap_behaviour (s : ReplicaState) (u : DepthUpdate)
    (hst : ¬ u.small_u < s.last_applied_u)
    (hgap : (s.is_synced = true ∧ 0 ≤ u.pu ∧ u.pu.toNat ≠ s.last_applied_u) ∨
            (s.is_synced = false ∧
              ¬(u.capital_u ≤ s.last_applied_u ∧ s.last_applied_u ≤ u.small_u))) :
    process_update s u = ({ s with update_buffer := [] }, true) := by
  unfold process_update
  rw [if_neg hst]
  rcases hgap with ⟨h1, h2⟩ | ⟨h1, h2⟩
  · rw [if_pos h1, if_pos h2]
  · rw [if_neg (by simp [h1]), if_neg h2]

theorem C6_gap_behaviour_witness :
    process_update ⟨[], [], 10, true, [⟨0, 0, "x", 1, 2, 1, [], []⟩]⟩
      ⟨0, 0, "", 11, 12, 99, [], []⟩ =
    ({ bids := [], asks := [], last_applied_u := 10, is_synced := true,
       update_buffer := [] }, true) :=
  C6_gap_behaviour ⟨[], [], 10, true, [⟨0, 0, "x", 1, 2, 1, [], []⟩]⟩
    ⟨0, 0, "", 11, 12, 99, [], []⟩ (by decide) (Or.inl ⟨rfl, by decide, by decide⟩)

/-! ## Claim theorems for the Hyperliquid adapter -/

set_option maxRecDepth 4000 in
/-- C7 (counterexample): two consecutive Hyperliquid books at times 100 and
200. The second synthesized event's `pu` is 199, not the first event's final
update id 100, so the contiguity check fails: a replica synced after the
first event detects a gap (Refetch) on the second. -/
theorem C7_counterexample :
    (convert_ws_book_to_update ⟨"SOL", [], [], 200⟩).pu.toNat ≠
      (convert_ws_book_to_update ⟨"SOL", [], [], 100⟩).small_u ∧
    (process_update
      ⟨[], [], (convert_ws_book_to_update ⟨"SOL", [], [], 100⟩).small_u, true, []⟩
      (convert_ws_book_to_update ⟨"SOL", [], [], 200⟩)).2 = true := by
  decide

/-- C7 (amended): every non-first Hyperliquid book at time `t` is converted
to a DiffEvent with `capital_u = small_u = t` and `pu = t - 1`; such an event
passes the replica's contiguity check against the previous event (pu equals
the previous final update id) iff its time is exactly the previous time + 1,
which consecutive millisecond timestamps generally violate. -/
theorem C7_conversion_contiguity (b1 b2 : HLWsBook)
    (h1 : 1 ≤ b1.time) (h1b : b1.time < 2 ^ 63)
    (h2 : 1 ≤ b2.time) (h2b : b2.time < 2 ^ 63) :
    (convert_ws_book_to_update b2).capital_u = b2.time ∧
    (convert_ws_book_to_update b2).small_u = b2.time ∧
    (convert_ws_book_to_update b2).pu = (b2.time : ℤ) - 1 ∧
    ((0 ≤ (convert_ws_book_to_update b2).pu ∧
        (convert_ws_book_to_update b2).pu.toNat =
          (convert_ws_book_to_update b1).small_u) ↔
      b2.time = b1.time + 1) := by
  have hpu : (convert_ws_book_to_update b2).pu = (b2.time : ℤ) - 1 := by
    simp only [convert_ws_book_to_update]
    unfold asI64 wrapSub64
    rw [if_pos (by omega)]
    omega
  have hs1 : (convert_ws_book_to_update b1).small_u = b1.time := by
    simp only [convert_ws_book_to_update]
  refine ⟨by simp only [convert_ws_book_to_update],
    by simp only [convert_ws_book_to_update], hpu, ?_⟩
  rw [hpu, hs1]
  constructor
  · rintro ⟨hge, heq⟩
    omega
  · intro he
    constructor
    · omega
    · omega

theorem C7_conversion_contiguity_witness :
    (convert_ws_book_to_update ⟨"SOL", [], [], 101⟩).pu = (101 : ℤ) - 1 :=
  (C7_conversion_contiguity ⟨"SOL", [], [], 100⟩ ⟨"SOL", [], [], 101⟩
    (by decide) (by decide) (by decide) (by decide)).2.2.1

/-! ## K-means lemmas -/

theorem normalize_length (pts : List ℚ) : (normalize pts).length = pts.length := by
  cases pts with
  | nil => rfl
  | cons x t =>
    simp only [normalize]
    by_cases h : 0 < listMax (x :: t) - listMin (x :: t)
    · rw [if_pos h]; simp
    · rw [if_neg h]

theorem fitPoints_length (ob : Book) :
    (fitPoints ob).length = (flattenPoints ob).length :=
  normalize_length _

theorem fit_labels_length (st : KState) (sampler : ℕ → ℕ → ℕ) (ob : Book) :
    (fit st sampler ob).2.length = (flattenPoints ob).length := by
  by_cases hob : flattenPoints ob = []
  · simp [fit, hob]
  · simp [fit, hob, fitPoints_length]

theorem lposIdxN_lt : ∀ {l : List ℕ} {a j : ℕ}, lposIdxN l a = some j → j < l.length := by
  intro l
  induction l with
  | nil => intro a j h; simp [lposIdxN] at h
  | cons x t ih =>
    intro a j h
    simp only [lposIdxN] at h
    by_cases hx : x = a
    · rw [if_pos hx] at h; cases h; simp
    · rw [if_neg hx] at h
      cases ht : lposIdxN t a with
      | some k =>
        rw [ht] at h
        simp only [Option.map_some'] at h
        cases h
        exact Nat.succ_lt_succ (ih ht)
      | none => rw [ht] at h; simp at h

theorem stabilize_length (k : ℕ) (cs : List ℚ) : (stabilizeIndices k cs).length = k := by
  simp [stabilizeIndices, List.length_insertionSort, List.length_range]

theorem stabilize_sorted (k : ℕ) (cs : List ℚ) :
    List.Sorted (fun a b => cs.getD a 0 ≤ cs.getD b 0) (stabilizeIndices k cs) := by
  have ht : IsTotal ℕ (fun a b => cs.getD a 0 ≤ cs.getD b 0) := ⟨fun a b => le_total _ _⟩
  have htr : IsTrans ℕ (fun a b => cs.getD a 0 ≤ cs.getD b 0) :=
    ⟨fun a b c h1 h2 => le_trans h1 h2⟩
  exact List.sorted_insertionSort _ _

theorem stabilize_mem (k : ℕ) (cs : List ℚ) {j : ℕ} (hj : j < k) :
    j ∈ stabilizeIndices k cs :=
  ((List.perm_insertionSort _ _).mem_iff).mpr (List.mem_range.mpr hj)

theorem stabilize_head_min (k : ℕ) (cs : List ℚ) (hk : 1 ≤ k) :
    ∀ j, j < k → cs.getD ((stabilizeIndices k cs).getD 0 0) 0 ≤ cs.getD j 0 := by
  intro j hj
  have hmem : j ∈ stabilizeIndices k cs := stabilize_mem k cs hj
  have hsort := stabilize_sorted k cs
  have hlen := stabilize_length k cs
  cases hind : stabilizeIndices k cs with
  | nil =>
    rw [hind] at hlen
    simp at hlen
    omega
  | cons i0 rest =>
    rw [hind] at hmem hsort
    simp only [List.getD_cons_zero]
    rcases List.mem_cons.mp hmem with h | h
    · rw [h]
    · exact (List.sorted_cons.mp hsort).1 j h

theorem label_lt (k : ℕ) (cs : List ℚ) (hk : 1 ≤ k) (l0 : ℕ) :
    (lposIdxN (stabilizeIndices k cs) l0).getD 0 < k := by
  cases h : lposIdxN (stabilizeIndices k cs) l0 with
  | none => simpa using hk
  | some j =>
    have hlt := lposIdxN_lt h
    rw [stabilize_length] at hlt
    simpa using hlt

/-! ## Claim theorems for the clusterer -/

/-- C8: on a book with at least one positive quantity and `k ≥ 1`, `fit`
returns one label per positive quantity, every label is below `k`, the
centroid values read off along the stabilization permutation are
non-decreasing, and the centroid at rank 0 is the smallest (also with fewer
points than `k`). -/
theorem C8_fit_labels (st : KState) (sampler : ℕ → ℕ → ℕ) (ob : Book)
    (hk : 1 ≤ st.num_clusters) (hob : flattenPoints ob ≠ []) :
    (fit st sampler ob).2.length = (flattenPoints ob).length ∧
    (∀ l ∈ (fit st sampler ob).2, l < st.num_clusters) ∧
    List.Sorted (fun a b => a ≤ b)
      ((stabilizeIndices st.num_clusters (fit st sampler ob).1.centroids).map
        (fun i => (fit st sampler ob).1.centroids.getD i 0)) ∧
    (∀ j, j < st.num_clusters →
      (fit st sampler ob).1.centroids.getD
        ((stabilizeIndices st.num_clusters (fit st sampler ob).1.centroids).getD 0 0) 0 ≤
      (fit st sampler ob).1.centroids.getD j 0) := by
  have hfit : fit st sampler ob =
      ({ st with centroids := fitCents st sampler ob },
       (fitPoints ob).map (fun p => (lposIdxN (stabilizeIndices st.num_clusters
         (fitCents st sampler ob)) (closest_centroid (fitCents st sampler ob) p)).getD 0)) := by
    simp [fit, hob]
  rw [hfit]
  refine ⟨?_, ?_, ?_, ?_⟩
  · simp [fitPoints_length]
  · intro l hl
    simp only [List.mem_map] at hl
    obtain ⟨p, _, hp⟩ := hl
    rw [← hp]
    exact label_lt st.num_clusters _ hk _
  · exact (List.pairwise_map).mpr (stabilize_sorted st.num_clusters (fitCents st sampler ob))
  · exact stabilize_head_min st.num_clusters (fitCents st sampler ob) hk

theorem C8_fit_labels_witness :
    (fit ⟨2, 1, 1, []⟩ (fun _ _ => 0) [(1, [3, 5])]).2.length =
      (flattenPoints [(1, [3, 5])]).length :=
  (C8_fit_labels ⟨2, 1, 1, []⟩ (fun _ _ => 0) [(1, [3, 5])] (by decide)
    (by
      have hv : flattenPoints [((1 : ℚ), [(3 : ℚ), 5])] = [3, 5] := by
        norm_num [flattenPoints]
      rw [hv]
      simp)).1

/-- C9: degenerate clustering never fails: `fit` on a book with no strictly
positive quantity returns an empty label vector without touching the stored
centroids, and `normalize` on a zero-range point set (min = max) leaves every
point unchanged. -/
theorem C9_degenerate (st : KState) (sampler : ℕ → ℕ → ℕ) (ob : Book)
    (hob : flattenPoints ob = []) (pts : List ℚ) (hr : listMin pts = listMax pts) :
    fit st sampler ob = (st, []) ∧ normalize pts = pts := by
  constructor
  · simp [fit, hob]
  · cases pts with
    | nil => rfl
    | cons x t =>
      simp only [normalize]
      rw [← hr, sub_self]
      simp

theorem C9_degenerate_witness :
    fit ⟨2, 1, 1, []⟩ (fun _ _ => 0) [(1, [0])] = (⟨2, 1, 1, []⟩, []) ∧
    normalize [2, 2] = [2, 2] :=
  C9_degenerate ⟨2, 1, 1, []⟩ (fun _ _ => 0) [(1, [0])]
    (by norm_num [flattenPoints]) [2, 2] (by norm_num [listMin, listMax])

/-! ## C10: label re-association never indexes out of bounds -/

theorem foldl_append_eq {α β : Type} (f : α → List β) : ∀ (l : List α) (a : List β),
    l.foldl (fun acc e => acc ++ f e) a = a ++ (l.map f).flatten := by
  intro l
  induction l with
  | nil => intro a; simp
  | cons x t ih => intro a; simp [ih]

theorem flattenPoints_cons (e : ℚ × List ℚ) (rest : Book) :
    flattenPoints (e :: rest) =
      e.2.filter (fun q => decide (0 < q)) ++ flattenPoints rest := by
  simp only [flattenPoints, List.foldl_cons]
  rw [foldl_append_eq, foldl_append_eq]
  simp

theorem flattenLabeled_acc : ∀ (l : List (ℚ × List (ℚ × ℕ))) (a : List (ℚ × ℕ)),
    l.foldl (fun acc e => acc ++ e.2) a = a ++ l.foldl (fun acc e => acc ++ e.2) [] := by
  intro l
  induction l with
  | nil => intro a; simp
  | cons x t ih =>
    intro a
    simp only [List.foldl_cons]
    rw [ih ([] ++ x.2), ih (a ++ x.2)]
    simp

theorem flattenLabeled_cons (x : ℚ × List (ℚ × ℕ)) (rest : List (ℚ × List (ℚ × ℕ))) :
    flattenLabeled (x :: rest) = x.2 ++ flattenLabeled rest := by
  simp only [flattenLabeled, List.foldl_cons]
  rw [flattenLabeled_acc]
  simp

theorem get?_eq_getD {α : Type} (d : α) : ∀ (l : List α) (i : ℕ), i < l.length →
    l.get? i = some (l.getD i d)
  | [], i, h => by simp at h
  | x :: t, 0, _ => rfl
  | x :: t, i + 1, h => by
    simp only [List.get?_cons_succ, List.getD_cons_succ]
    exact get?_eq_getD d t i (by simpa using h)

theorem drop_eq_getD_cons {α : Type} (d : α) : ∀ (l : List α) (i : ℕ), i < l.length →
    l.drop i = l.getD i d :: l.drop (i + 1)
  | [], i, h => by simp at h
  | x :: t, 0, _ => by simp
  | x :: t, i + 1, h => by
    simp only [List.drop_succ_cons, List.getD_cons_succ]
    exact drop_eq_getD_cons d t i (by simpa using h)

theorem zip_append_of_le {l1 l2 : List ℚ} : ∀ {l3 : List ℕ}, l1.length ≤ l3.length →
    (l1 ++ l2).zip l3 = l1.zip l3 ++ l2.zip (l3.drop l1.length) := by
  induction l1 with
  | nil => intro l3 _; simp
  | cons x t ih =>
    intro l3 h
    cases l3 with
    | nil => simp at h
    | cons y t3 =>
      simp only [List.cons_append, List.zip_cons_cons, List.length_cons,
        List.drop_succ_cons]
      rw [ih (by simpa using h)]

theorem buildRow_ok : ∀ (qs : List ℚ) (labels : List ℕ) (idx : ℕ),
    idx + (qs.filter (fun q => decide (0 < q))).length ≤ labels.length →
    buildRow labels qs idx =
      some ((qs.filter (fun q => decide (0 < q))).zip (labels.drop idx),
        idx + (qs.filter (fun q => decide (0 < q))).length) := by
  intro qs
  induction qs with
  | nil => intro labels idx h; simp [buildRow]
  | cons q rest ih =>
    intro labels idx h
    by_cases hq : 0 < q
    · have hflt : (q :: rest).filter (fun x => decide (0 < x)) =
          q :: rest.filter (fun x => decide (0 < x)) := by
        simp [List.filter_cons, hq]
      rw [hflt] at h ⊢
      have hidx : idx < labels.length := by
        simp only [List.length_cons] at h
        omega
      simp only [buildRow, if_pos hq, get?_eq_getD 0 labels idx hidx]
      rw [ih labels (idx + 1) (by simp only [List.length_cons] at h; omega)]
      simp only [Option.map_some']
      rw [drop_eq_getD_cons 0 labels idx hidx]
      simp only [List.zip_cons_cons, List.length_cons, Option.some.injEq,
        Prod.mk.injEq]
      exact ⟨trivial, by omega⟩
    · have hflt : (q :: rest).filter (fun x => decide (0 < x)) =
          rest.filter (fun x => decide (0 < x)) := by
        simp [List.filter_cons, hq]
      rw [hflt] at h ⊢
      simp only [buildRow, if_neg hq]
      exact ih labels idx h

theorem buildAll_ok : ∀ (ob : Book) (labels : List ℕ) (idx : ℕ),
    idx + (flattenPoints ob).length ≤ labels.length →
    ∃ r, buildAll labels ob idx = some r ∧
      flattenLabeled r = (flattenPoints ob).zip (labels.drop idx) := by
  intro ob
  induction ob with
  | nil =>
    intro labels idx _
    exact ⟨[], rfl, by simp [flattenLabeled, flattenPoints]⟩
  | cons e rest ih =>
    intro labels idx h
    rw [flattenPoints_cons, List.length_append] at h
    have hb := buildRow_ok e.2 labels idx (by omega)
    obtain ⟨r2, hr2, hflat2⟩ :=
      ih labels (idx + (e.2.filter (fun q => decide (0 < q))).length) (by omega)
    refine ⟨(e.1, (e.2.filter (fun q => decide (0 < q))).zip (labels.drop idx)) :: r2,
      ?_, ?_⟩
    · simp only [buildAll, hb, hr2, Option.map_some']
    · rw [flattenLabeled_cons, flattenPoints_cons, hflat2]
      have hle : (e.2.filter (fun q => decide (0 < q))).length ≤ (labels.drop idx).length := by
        rw [List.length_drop]
        omega
      rw [zip_append_of_le hle, List.drop_drop, Nat.add_comm]

/-- C10: `fit` emits exactly one label per strictly positive quantity, and
`build_clustered_orders` filters with the same `qty > 0` predicate in the
same traversal order, so it never indexes the label vector out of bounds and
pairs each positive quantity with the label at its own flattened index. -/
theorem C10_build_safe (st : KState) (sampler : ℕ → ℕ → ℕ) (ob : Book)
    (_hk : 1 ≤ st.num_clusters) :
    ∃ r, build_clustered_orders ob (fit st sampler ob).2 = some r ∧
      flattenLabeled r = (flattenPoints ob).zip (fit st sampler ob).2 := by
  have hlen := fit_labels_length st sampler ob
  obtain ⟨r, hr, hf⟩ := buildAll_ok ob (fit st sampler ob).2 0 (by omega)
  exact ⟨r, hr, by simpa using hf⟩

theorem C10_build_safe_witness :
    (build_clustered_orders [(1, [3, 5])]
      (fit ⟨2, 1, 1, []⟩ (fun _ _ => 0) [(1, [3, 5])]).2).isSome = true := by
  obtain ⟨r, hr, _⟩ := C10_build_safe ⟨2, 1, 1, []⟩ (fun _ _ => 0) [(1, [3, 5])]
    (by decide)
  rw [hr]
  rfl

end L3Est
